import Mathlib

/-!
Shallow embedding of the lc0 DAG search-tree core (src/mcts/node.h and
src/neural/cache.cc) and proofs about it.

Floating point values are modelled as rationals, machine integers as
naturals with explicit reduction modulo 2^w where the width matters.
Pointers into sibling chains are modelled as positions in Lean lists;
the sequential semantics of the lock-free insertion is the exact list
transformation performed by a single thread whose CAS always succeeds.
-/

namespace lczero

/-- Game result enumeration (chess/callbacks.h collaborator). -/
inductive GameResult where
  | blackWon
  | draw
  | whiteWon
deriving DecidableEq, Repr

/-- Terminal type of a node (node.h, enum class Terminal). -/
inductive Terminal where
  | nonTerminal
  | endOfGame
  | tablebase
deriving DecidableEq, Repr

/-- One potential edge: a move encoding and its policy prior (node.h, class
Edge).  The prior is stored as a 16-bit compressed float in the source; the
compression routines (GetP/SetP in node.cc) are not under src, so the stored
prior is modelled as an exact rational. -/
structure Edge where
  move : Nat
  p : ℚ
deriving DecidableEq, Repr

/-- Network evaluation record (node.h, struct NNEval). -/
structure NNEval where
  edges : List Edge
  q : ℚ
  d : ℚ
  e : ℚ
  m : ℚ
  numEdges : Nat
deriving DecidableEq, Repr

/-- A high node: one materialized edge instance (node.h, class Node).  The
sibling_ chain is represented by the position of the node in its parent
payload's child list; low_node_ is a non-owning reference modelled as an
optional identifier. -/
structure Node where
  wl : ℚ
  vs : ℚ
  weight : ℚ
  d : ℚ
  low : Option Nat
  m : ℚ
  n : Nat
  nInFlight : Nat
  edge : Edge
  index : Nat
  terminalType : Terminal
  lowerBound : GameResult
  upperBound : GameResult
  repetition : Bool
deriving DecidableEq, Repr

/-- Node(const Edge& edge, uint16_t index) constructor: all statistics zero,
non-terminal, widest bounds. -/
def Node.mkFresh (edge : Edge) (index : Nat) : Node where
  wl := 0
  vs := 0
  weight := 0
  d := 0
  low := none
  m := 0
  n := 0
  nInFlight := 0
  edge := edge
  index := index
  terminalType := Terminal.nonTerminal
  lowerBound := GameResult.blackWon
  upperBound := GameResult.whiteWon
  repetition := false

/-- A shared-position payload (node.h, class LowNode).  The edges_ array is
an Option: none models a null edges_ pointer, some es models an allocated
array (which may be empty, as make_unique of length 0 returns a non-null
pointer).  The child_ sibling chain is represented as the list of high nodes
in chain order. -/
structure LowNode where
  wl : ℚ
  vs : ℚ
  weight : ℚ
  d : ℚ
  hash : Nat
  edges : Option (List Edge)
  child : List Node
  m : ℚ
  v : ℚ
  e : ℚ
  n : Nat
  numParents : Nat
  numEdges : Nat
  terminalType : Terminal
  lowerBound : GameResult
  upperBound : GameResult
  isTransposition : Bool
  isTT : Bool
deriving DecidableEq, Repr

/-- LowNode(uint64_t hash) constructor (for TT nodes): everything default,
is_tt_ = true. -/
def LowNode.ttNew (hash : Nat) : LowNode where
  wl := 0
  vs := 0
  weight := 0
  d := 0
  hash := hash
  edges := none
  child := []
  m := 0
  v := 0
  e := 0
  n := 0
  numParents := 0
  numEdges := 0
  terminalType := Terminal.nonTerminal
  lowerBound := GameResult.blackWon
  upperBound := GameResult.whiteWon
  isTransposition := false
  isTT := true

/-- LowNode::SetNNEval: installs the edge array (memcpy of num_edges
entries) and the original evaluation. -/
def LowNode.setNNEval (l : LowNode) (eval : NNEval) : LowNode :=
  { l with
    edges := some (eval.edges.take eval.numEdges)
    wl := eval.q
    v := eval.q
    d := eval.d
    e := eval.e
    m := eval.m
    vs := eval.q * eval.q
    numEdges := eval.numEdges }

/-- LowNode::HasChildren: num_edges_ > 0. -/
def LowNode.hasChildren (l : LowNode) : Bool :=
  decide (0 < l.numEdges)

/-- LowNode::GetChildrenVisits: returns n_ - 1 computed in unsigned 32-bit
arithmetic (n_ is a uint32_t). -/
def LowNode.getChildrenVisits (l : LowNode) : Nat :=
  (l.n % 4294967296 + 4294967295) % 4294967296

/-- LowNode::ClearTT: is_tt_ = !is_tt_. -/
def LowNode.clearTT (l : LowNode) : LowNode :=
  { l with isTT := !l.isTT }

/-- LowNode::AddParent: ++num_parents_ (uint16_t), then
is_transposition |= num_parents_ > 1. -/
def LowNode.addParent (l : LowNode) : LowNode :=
  { l with
    numParents := (l.numParents + 1) % 65536
    isTransposition := l.isTransposition || decide (1 < (l.numParents + 1) % 65536) }

/-- LowNode::RemoveParent: --num_parents_ (uint16_t). -/
def LowNode.removeParent (l : LowNode) : LowNode :=
  { l with numParents := (l.numParents + 65535) % 65536 }

/-- An operation on a payload's parent counter. -/
inductive ParentOp where
  | add
  | remove
deriving DecidableEq, Repr

/-- Apply one AddParent/RemoveParent call. -/
def parentStep (l : LowNode) (op : ParentOp) : LowNode :=
  match op with
  | ParentOp.add => l.addParent
  | ParentOp.remove => l.removeParent

/-- LowNode(const LowNode& p) copy constructor (for non-TT clones): copies
wl_, v_, hash_, d_, e_, m_, vs_ and the first num_edges_ entries of the edge
array; statistics n_, weight_, children and parents are left at their
defaults; non-terminal with widest bounds; is_tt_ = false. -/
def LowNode.clone (p : LowNode) : LowNode where
  wl := p.wl
  vs := p.vs
  weight := 0
  d := p.d
  hash := p.hash
  edges := some ((p.edges.getD []).take p.numEdges)
  child := []
  m := p.m
  v := p.v
  e := p.e
  n := 0
  numParents := 0
  numEdges := p.numEdges
  terminalType := Terminal.nonTerminal
  lowerBound := GameResult.blackWon
  upperBound := GameResult.whiteWon
  isTransposition := false
  isTT := false

/-- LowNode(const LowNode& p, const uint64_t hash) constructor: same as the
copy constructor but with the given hash. -/
def LowNode.cloneWithHash (p : LowNode) (hash : Nat) : LowNode :=
  { p.clone with hash := hash }

/-- LowNode::GetEdgeAt(index): edges_[index]. -/
def LowNode.getEdgeAt (l : LowNode) (index : Nat) : Edge :=
  (l.edges.getD []).getD index (Edge.mk 0 0)

/-!
Edge_Iterator::GetOrSpawnNode / Actualize (node.h lines 830-901), sequential
semantics.  Actualize walks the sibling chain from the iterator cursor while
the pointed node's index is below current_idx_; since every node before the
cursor has index below current_idx_, the walk from the cursor reaches the
same slot as a walk from the list head.  When a node with the target index
is found it is returned and the chain is unchanged; otherwise the freshly
prepared node is linked in at that slot (the compare-exchange of a single
thread always succeeds).
-/

/-- Sequential effect of GetOrSpawnNode with prepared node fresh at target
index k on a sibling chain: returns the resulting node and the new chain. -/
def spawnAux (fresh : Node) (k : Nat) : List Node → Node × List Node
  | [] => (fresh, [fresh])
  | x :: xs =>
    if x.index < k then
      ((spawnAux fresh k xs).1, x :: (spawnAux fresh k xs).2)
    else if x.index = k then (x, x :: xs)
    else (fresh, fresh :: x :: xs)

/-- Edge_Iterator::GetOrSpawnNode at current index k on a payload: prepares
Node(parent->GetLowNode()->GetEdgeAt(k), k) and inserts it unless a node
with index k is already in the chain. -/
def LowNode.getOrSpawnNode (p : LowNode) (k : Nat) : Node × LowNode :=
  let r := spawnAux (Node.mkFresh (p.getEdgeAt k) k) k p.child
  (r.1, { p with child := r.2 })

/-- Payload after a sequence of GetOrSpawnNode calls at the given indices. -/
def spawnMany (p : LowNode) (ops : List Nat) : LowNode :=
  ops.foldl (fun q k => (q.getOrSpawnNode k).2) p

/-!
VisitedNode_Iterator (node.h lines 922-974), sequential semantics.  The
begin constructor starts at the head of the chain and, when the head node
has n == 0, immediately advances.  operator++ repeatedly advances to the
sibling; if the new node has n == 0 and n_in_flight == 0 the iterator
becomes end(), otherwise it keeps advancing while n == 0.  The functions
below return the list of nodes the loop "for (node : VisitedNodes())"
yields.
-/

/-- Nodes yielded by repeated VisitedNode_Iterator::operator++ over the
remaining chain (the part after the current node). -/
def vYieldsTail : List Node → List Node
  | [] => []
  | nd :: rest =>
    if nd.n = 0 ∧ nd.nInFlight = 0 then []
    else if nd.n = 0 then vYieldsTail rest
    else nd :: vYieldsTail rest

/-- All nodes yielded by iterating VisitedNodes() over a child chain.  The
begin constructor checks only GetN() == 0 on the head (not n_in_flight)
and advances past it via operator++ when it is zero. -/
def visitedYields : List Node → List Node
  | [] => []
  | nd :: rest => if nd.n = 0 then vYieldsTail rest else nd :: vYieldsTail rest

/-- The condition on which operator++ jumps directly to end(). -/
def visitedStop (nd : Node) : Prop := nd.n = 0 ∧ nd.nInFlight = 0

instance (nd : Node) : Decidable (visitedStop nd) := by
  unfold visitedStop
  infer_instance

/-!
Edge_Iterator begin/end (node.h lines 792-908).  The edge_ pointer into the
payload's edge array is modelled as an Option Nat offset: none is the null
pointer (end() and exhausted iterators), some i points at edges_[i].  The
EdgeAndNode equality operator compares only the edge_ pointers.
-/

/-- State of an Edge_Iterator relevant to begin/end comparison and element
production. -/
structure EIter where
  edge : Option Nat
  currentIdx : Nat
  totalCount : Nat
deriving DecidableEq, Repr

/-- Edge_Iterator(): the end() iterator (edge_ = nullptr). -/
def endEdgeIter : EIter where
  edge := none
  currentIdx := 0
  totalCount := 0

/-- Edge_Iterator(LowNode* parent_node): edge_ is the edge array base
pointer (null exactly when edges_ is null, since an allocated array of
length zero still has a non-null base), total_count_ = num_edges_. -/
def beginEdgeIter : Option LowNode → EIter
  | none => endEdgeIter
  | some p =>
    { edge := if p.edges = none then none else some 0
      currentIdx := 0
      totalCount := p.numEdges }

/-- EdgeAndNode::operator== compares the edge_ pointers only. -/
def eiterSameElem (a b : EIter) : Bool :=
  a.edge == b.edge

/-- Edge_Iterator::operator++: increment current_idx_ (uint16_t); when it
equals total_count_ the iterator becomes end(), otherwise edge_ advances. -/
def eIterStep (it : EIter) : EIter :=
  let ci := (it.currentIdx + 1) % 65536
  if ci = it.totalCount % 65536 then { it with edge := none, currentIdx := ci }
  else { it with edge := it.edge.map (· + 1), currentIdx := ci }

/-- Offsets of the elements produced by iterating from a given iterator
until it compares equal to end(); fuel bounds the number of steps. -/
def eIterRun : Nat → EIter → List Nat
  | 0, _ => []
  | fuel + 1, it =>
    match it.edge with
    | none => []
    | some off => off :: eIterRun fuel (eIterStep it)

/-- Elements produced by iterating Edges() of a payload.  The uint16_t
current_idx_ can only wrap after 65536 increments, so that much fuel covers
every run until end(). -/
def edgeIterYields (parent : Option LowNode) : List Nat :=
  eIterRun 65537 (beginEdgeIter parent)

/-!
Transposition table (node.h, NodeTree).  Modelled as an association list
from hash to payload.
-/

/-- Find the payload for a hash in the table. -/
def ttLookup (tt : List (Nat × LowNode)) (h : Nat) : Option LowNode :=
  (tt.find? (fun kv => kv.1 == h)).map (fun kv => kv.2)

/-- Modelled from the spec: the body of
NodeTree::TTGetOrCreate(const LowNode&, uint64_t) is in node.cc, which is
not under src (only the declaration at node.h line 1024 is).  Per the spec
it inserts a copy of the template payload's edge array and evaluation under
hash h, with fresh statistics and is_tt = true; the copy is the
LowNode(const LowNode&, uint64_t) constructor from src (cloneWithHash),
with is_tt then set to true as the spec states.  Returns the payload, a
newly-created flag and the updated table. -/
def ttGetOrCreateFrom (tt : List (Nat × LowNode)) (p : LowNode) (h : Nat) :
    (LowNode × Bool) × List (Nat × LowNode) :=
  match ttLookup tt h with
  | some q => ((q, false), tt)
  | none =>
    let q := { p.cloneWithHash h with isTT := true }
    ((q, true), (h, q) :: tt)

/-!
CachingComputation::ComputeBlocking policy post-processing
(src/neural/cache.cc lines 99-146).  FastExp (utils/fastmath, not under
src) is modelled as an abstract positive function; Edge::SetP stores the
value exactly (the 16-bit compression lives in node.cc, not under src).
-/

/-- Running maximum of the logits, starting from -infinity as in the code;
only used on non-empty lists, where it equals the list maximum. -/
def maxLogit : List ℚ → ℚ
  | [] => 0
  | x :: xs => xs.foldl max x

/-- The per-edge priors computed by ComputeBlocking for one cache-miss
entry: subtract the maximum logit, divide by the softmax temperature,
exponentiate, then multiply by scale = 1/total when total > 0 (else 1). -/
def softmaxPriors (temp : ℚ) (fexp : ℚ → ℚ) (logits : List ℚ) : List ℚ :=
  let mx := maxLogit logits
  let inter := logits.map (fun p => fexp ((p - mx) / temp))
  let total := inter.sum
  let scale := if 0 < total then 1 / total else 1
  inter.map (fun p => p * scale)

/-- Modelled from the spec: Edge::SortEdges lives in node.cc, which is not
under src (only the declaration at node.h line 187 is).  Per the spec the
edges are sorted by policy prior descending (stable). -/
def sortEdgesDesc (l : List Edge) : List Edge :=
  l.mergeSort (fun a b => decide (b.p ≤ a.p))

/-- The whole edge-array post-processing of one cache-miss entry: write the
computed priors back into the edge array, then sort by prior descending. -/
def computeEntryEdges (temp : ℚ) (fexp : ℚ → ℚ) (edges : List Edge)
    (logits : List ℚ) : List Edge :=
  sortEdgesDesc (List.zipWith (fun e q => { e with p := q }) edges
    (softmaxPriors temp fexp logits))

/-- The priors described by the spec sentence: subtract the maximum logit
from each logit, divide by the softmax temperature, exponentiate, and
normalize the results to sum to 1. -/
def claimPriors (temp : ℚ) (fexp : ℚ → ℚ) (logits : List ℚ) : List ℚ :=
  let mx := maxLogit logits
  let raw := logits.map (fun p => fexp ((p - mx) / temp))
  raw.map (fun p => p / raw.sum)

/-- Strict ordering of high nodes by edge index. -/
def indexLt (a b : Node) : Prop := a.index < b.index

instance : DecidableRel indexLt := fun a b => by
  unfold indexLt
  infer_instance

/-- Fixture: an edge array with three entries. -/
def fixtureEdges : List Edge := [Edge.mk 10 0, Edge.mk 11 0, Edge.mk 12 0]

/-- Fixture: a payload with three edges and no children. -/
def fixturePayload : LowNode :=
  { LowNode.ttNew 5 with edges := some fixtureEdges, numEdges := 3 }

/-- Fixture: the payload with an existing child at index 1. -/
def fixtureChildPayload : LowNode :=
  { fixturePayload with child := [Node.mkFresh (Edge.mk 11 0) 1] }

/-- Fixture: a payload carrying accumulated statistics that differ from its
original evaluation. -/
def statPayload : LowNode :=
  { fixturePayload with wl := 1/2, v := 1/4, n := 7, weight := 2 }

/-- Fixture: a payload that received a network evaluation with zero legal
moves, so its edge array is allocated but empty. -/
def emptyEvalPayload : LowNode :=
  (LowNode.ttNew 0).setNNEval (NNEval.mk [] 0 0 0 0 0)

/-- Fixture: a visited node (two completed visits) at index 0. -/
def nodeVisited2 : Node := { Node.mkFresh (Edge.mk 10 0) 0 with n := 2 }

/-- Fixture: an unvisited node with no visits in flight at index 1. -/
def nodeUnvisited : Node := Node.mkFresh (Edge.mk 11 0) 1

/-- Fixture: a visited node (nine completed visits) at index 2. -/
def nodeVisited9 : Node := { Node.mkFresh (Edge.mk 12 0) 2 with n := 9 }

/-- Fixture: an unvisited head node with no visits in flight at index 0. -/
def cexHeadStop : Node := Node.mkFresh (Edge.mk 10 0) 0

/-- Fixture: a visited node (five completed visits) at index 1. -/
def cexAfterHead : Node := { Node.mkFresh (Edge.mk 11 0) 1 with n := 5 }

/-!  Lemmas about the sequential sibling-list insertion.  -/

theorem spawnAux_mem (fresh : Node) (k : Nat) :
    ∀ l : List Node, ∀ x ∈ (spawnAux fresh k l).2, x = fresh ∨ x ∈ l := by
  intro l
  induction l with
  | nil =>
    intro x hx
    simp only [spawnAux, List.mem_singleton] at hx
    exact Or.inl hx
  | cons y ys ih =>
    intro x hx
    by_cases h1 : y.index < k
    · simp only [spawnAux, if_pos h1, List.mem_cons] at hx
      rcases hx with h | h
      · exact Or.inr (h ▸ List.mem_cons_self y ys)
      · rcases ih x h with h2 | h2
        · exact Or.inl h2
        · exact Or.inr (List.mem_cons_of_mem y h2)
    · by_cases h2 : y.index = k
      · simp only [spawnAux, if_neg h1, if_pos h2] at hx
        exact Or.inr hx
      · simp only [spawnAux, if_neg h1, if_neg h2, List.mem_cons] at hx
        rcases hx with h | h | h
        · exact Or.inl h
        · exact Or.inr (h ▸ List.mem_cons_self y ys)
        · exact Or.inr (List.mem_cons_of_mem y h)

theorem spawnAux_pairwise (fresh : Node) (k : Nat) (hf : fresh.index = k) :
    ∀ l : List Node, l.Pairwise indexLt → (spawnAux fresh k l).2.Pairwise indexLt := by
  intro l
  induction l with
  | nil =>
    intro _
    simp [spawnAux, List.pairwise_singleton]
  | cons y ys ih =>
    intro hp
    rw [List.pairwise_cons] at hp
    by_cases h1 : y.index < k
    · simp only [spawnAux, if_pos h1]
      rw [List.pairwise_cons]
      refine ⟨?_, ih hp.2⟩
      intro z hz
      rcases spawnAux_mem fresh k ys z hz with h | h
      · unfold indexLt
        rw [h, hf]
        exact h1
      · exact hp.1 z h
    · by_cases h2 : y.index = k
      · simp only [spawnAux, if_neg h1, if_pos h2]
        rw [List.pairwise_cons]
        exact hp
      · have hk : k < y.index := lt_of_le_of_ne (le_of_not_lt h1) (fun h => h2 h.symm)
        simp only [spawnAux, if_neg h1, if_neg h2]
        rw [List.pairwise_cons]
        constructor
        · intro z hz
          rcases List.mem_cons.mp hz with h | h
          · unfold indexLt
            rw [hf, h]
            exact hk
          · unfold indexLt
            rw [hf]
            exact lt_trans hk (hp.1 z h)
        · rw [List.pairwise_cons]
          exact hp

theorem spawnAux_found (fresh : Node) (k : Nat) :
    ∀ l : List Node, l.Pairwise indexLt → ∀ x ∈ l, x.index = k →
      spawnAux fresh k l = (x, l) := by
  intro l
  induction l with
  | nil =>
    intro _ x hx
    exact absurd hx (List.not_mem_nil x)
  | cons y ys ih =>
    intro hp x hx hxk
    rw [List.pairwise_cons] at hp
    rcases List.mem_cons.mp hx with h | h
    · subst h
      have h1 : ¬ x.index < k := by omega
      simp only [spawnAux, if_neg h1, if_pos hxk]
    · have hyx : indexLt y x := hp.1 x h
      unfold indexLt at hyx
      have h1 : y.index < k := hxk ▸ hyx
      simp only [spawnAux, if_pos h1]
      rw [ih hp.2 x h hxk]

theorem spawnAux_countP (fresh : Node) (k : Nat) (hf : fresh.index = k) :
    ∀ l : List Node, l.Pairwise indexLt →
      ((spawnAux fresh k l).2.countP (fun x => x.index == k)) = 1 := by
  intro l
  induction l with
  | nil =>
    intro _
    simp [spawnAux, List.countP_cons, hf]
  | cons y ys ih =>
    intro hp
    rw [List.pairwise_cons] at hp
    by_cases h1 : y.index < k
    · have hyb : (y.index == k) = false := by
        rw [beq_eq_false_iff_ne]
        omega
      simp only [spawnAux, if_pos h1]
      rw [List.countP_cons]
      simpa [hyb] using ih hp.2
    · have hzero : ys.countP (fun x => x.index == k) = 0 := by
        rw [List.countP_eq_zero]
        intro a ha
        have hya : indexLt y a := hp.1 a ha
        unfold indexLt at hya
        simp only [beq_iff_eq]
        omega
      by_cases h2 : y.index = k
      · have hyb : (y.index == k) = true := beq_iff_eq.mpr h2
        simp only [spawnAux, if_neg h1, if_pos h2]
        rw [List.countP_cons]
        simp [hyb, hzero]
      · have hyb : (y.index == k) = false := beq_eq_false_iff_ne.mpr h2
        have hfb : (fresh.index == k) = true := beq_iff_eq.mpr hf
        simp only [spawnAux, if_neg h1, if_neg h2]
        rw [List.countP_cons, List.countP_cons]
        simp [hyb, hfb, hzero]

theorem spawnMany_invariant :
    ∀ (ops : List Nat) (p : LowNode),
      (∀ k ∈ ops, k < p.numEdges) → p.child.Pairwise indexLt →
      (∀ x ∈ p.child, x.index < p.numEdges) →
      (spawnMany p ops).child.Pairwise indexLt ∧
        ∀ x ∈ (spawnMany p ops).child, x.index < p.numEdges := by
  intro ops
  induction ops with
  | nil =>
    intro p _ hs hb
    exact ⟨hs, hb⟩
  | cons k ks ih =>
    intro p hops hs hb
    have hstep : spawnMany p (k :: ks) = spawnMany (p.getOrSpawnNode k).2 ks := rfl
    have hne : (p.getOrSpawnNode k).2.numEdges = p.numEdges := rfl
    have hchild : (p.getOrSpawnNode k).2.child =
        (spawnAux (Node.mkFresh (p.getEdgeAt k) k) k p.child).2 := rfl
    have hkp : k < p.numEdges := hops k (List.mem_cons_self k ks)
    have hs2 : (p.getOrSpawnNode k).2.child.Pairwise indexLt := by
      rw [hchild]
      exact spawnAux_pairwise _ k rfl p.child hs
    have hb2 : ∀ x ∈ (p.getOrSpawnNode k).2.child, x.index < p.numEdges := by
      rw [hchild]
      intro x hx
      rcases spawnAux_mem _ k p.child x hx with h | h
      · rw [h]
        exact hkp
      · exact hb x h
    have := ih (p.getOrSpawnNode k).2 (fun j hj => hops j (List.mem_cons_of_mem k hj)) hs2 hb2
    rw [hstep]
    exact this

/-- C1: for every payload, after any sequence of GetOrSpawnNode calls made
through edge iterators over it (each call inserting a fresh high node at
the current index when none with that index exists), the child sibling
list is strictly ascending in index, every index lies below num_edges, and
no index appears twice. -/
theorem spawn_chain_invariant (p : LowNode) (ops : List Nat)
    (hops : ∀ k ∈ ops, k < p.numEdges)
    (hsorted : p.child.Pairwise indexLt)
    (hbound : ∀ x ∈ p.child, x.index < p.numEdges) :
    (spawnMany p ops).child.Pairwise indexLt ∧
      (∀ x ∈ (spawnMany p ops).child, x.index < p.numEdges) ∧
      ((spawnMany p ops).child.map Node.index).Nodup := by
  obtain ⟨h1, h2⟩ := spawnMany_invariant ops p hops hsorted hbound
  refine ⟨h1, h2, ?_⟩
  rw [List.Nodup, List.pairwise_map]
  exact h1.imp (fun h => Nat.ne_of_lt h)

/-- Witness for spawn_chain_invariant at the spec scenario: three edges,
spawned at indices 1, 0, 2. -/
theorem spawn_chain_invariant_witness :
    (spawnMany fixturePayload [1, 0, 2]).child.Pairwise indexLt ∧
      (∀ x ∈ (spawnMany fixturePayload [1, 0, 2]).child, x.index < fixturePayload.numEdges) ∧
      ((spawnMany fixturePayload [1, 0, 2]).child.map Node.index).Nodup :=
  spawn_chain_invariant fixturePayload [1, 0, 2] (by decide) (by decide) (by decide)

/-- C2: when the child list already holds a high node at the iterator's
current index, GetOrSpawnNode returns that node and leaves the payload
unchanged; and after two insertions targeting the same index exactly one
node with that index is in the list. -/
theorem spawn_existing_no_realloc (p : LowNode) (k : Nat)
    (hsorted : p.child.Pairwise indexLt) :
    (∀ x ∈ p.child, x.index = k → p.getOrSpawnNode k = (x, p)) ∧
    ((((p.getOrSpawnNode k).2).getOrSpawnNode k).2.child.countP
        (fun x => x.index == k) = 1) := by
  constructor
  · intro x hx hxk
    unfold LowNode.getOrSpawnNode
    rw [spawnAux_found _ k p.child hsorted x hx hxk]
  · have hs1 : (p.getOrSpawnNode k).2.child.Pairwise indexLt :=
      spawnAux_pairwise _ k rfl p.child hsorted
    exact spawnAux_countP _ k rfl _ hs1

/-- Witness for spawn_existing_no_realloc on a payload whose child list
already holds the node of index 1. -/
theorem spawn_existing_no_realloc_witness :
    fixtureChildPayload.getOrSpawnNode 1 =
      (Node.mkFresh (Edge.mk 11 0) 1, fixtureChildPayload) ∧
    (((fixtureChildPayload.getOrSpawnNode 1).2.getOrSpawnNode 1).2.child.countP
        (fun x => x.index == 1) = 1) := by
  have h := spawn_existing_no_realloc fixtureChildPayload 1 (by decide)
  exact ⟨h.1 (Node.mkFresh (Edge.mk 11 0) 1) (by decide) rfl, h.2⟩

theorem vYieldsTail_pos : ∀ l : List Node, ∀ nd ∈ vYieldsTail l, 0 < nd.n := by
  intro l
  induction l with
  | nil =>
    intro nd hnd
    simp [vYieldsTail] at hnd
  | cons x xs ih =>
    intro nd hnd
    by_cases h1 : x.n = 0 ∧ x.nInFlight = 0
    · simp [vYieldsTail, if_pos h1] at hnd
    · by_cases h2 : x.n = 0
      · simp only [vYieldsTail, if_neg h1, if_pos h2] at hnd
        exact ih nd hnd
      · simp only [vYieldsTail, if_neg h1, if_neg h2, List.mem_cons] at hnd
        rcases hnd with h | h
        · rw [h]
          exact Nat.pos_of_ne_zero h2
        · exact ih nd h

theorem vYieldsTail_stop (s : Node) (post : List Node) (hs : visitedStop s) :
    ∀ pre : List Node, (∀ x ∈ pre, ¬ visitedStop x) →
      vYieldsTail (pre ++ s :: post) = pre.filter (fun x => decide (0 < x.n)) := by
  intro pre
  induction pre with
  | nil =>
    intro _
    rw [List.nil_append]
    simp only [vYieldsTail, if_pos (And.intro hs.1 hs.2), List.filter_nil]
  | cons x xs ih =>
    intro hpre
    have hx : ¬ visitedStop x := hpre x (List.mem_cons_self x xs)
    have hcond : ¬ (x.n = 0 ∧ x.nInFlight = 0) := hx
    have hrest := ih (fun z hz => hpre z (List.mem_cons_of_mem x hz))
    by_cases hxn : x.n = 0
    · rw [List.cons_append]
      simp only [vYieldsTail, if_neg hcond, if_pos hxn]
      rw [hrest]
      have hb : (decide (0 < x.n)) = false := by
        rw [decide_eq_false_iff_not]
        omega
      simp [List.filter_cons, hb]
    · rw [List.cons_append]
      simp only [vYieldsTail, if_neg hcond, if_neg hxn]
      rw [hrest]
      have hb : (decide (0 < x.n)) = true := by
        rw [decide_eq_true_eq]
        omega
      simp [List.filter_cons, hb]

/-- C3 counterexample: a child list whose first entry has n = 0 and
n_in_flight = 0; the node after that entry is nevertheless yielded,
because the begin constructor skips a head with n = 0 instead of ending. -/
theorem visited_iteration_head_cex :
    visitedStop cexHeadStop ∧
    visitedYields [cexHeadStop, cexAfterHead] = [cexAfterHead] :=
  ⟨⟨rfl, rfl⟩, rfl⟩

/-- C3 (amended): visited-node iteration yields only high nodes with n > 0,
and it ends at the first entry beyond the head with n = 0 and
n_in_flight = 0: the yield list is exactly the head (when its n > 0)
followed by the visited nodes strictly before that entry.  A head node with
n = 0 is skipped by the begin constructor without ending the iteration. -/
theorem visited_iteration_truncates :
    (∀ l : List Node, ∀ nd ∈ visitedYields l, 0 < nd.n) ∧
    (∀ (a s : Node) (pre post : List Node),
      (∀ x ∈ pre, ¬ visitedStop x) → visitedStop s →
      visitedYields (a :: (pre ++ s :: post)) =
        (if a.n = 0 then [] else [a]) ++ pre.filter (fun x => decide (0 < x.n))) := by
  constructor
  · intro l
    cases l with
    | nil =>
      intro nd hnd
      simp [visitedYields] at hnd
    | cons a rest =>
      intro nd hnd
      by_cases h : a.n = 0
      · simp only [visitedYields, if_pos h] at hnd
        exact vYieldsTail_pos rest nd hnd
      · simp only [visitedYields, if_neg h, List.mem_cons] at hnd
        rcases hnd with hh | hh
        · rw [hh]
          exact Nat.pos_of_ne_zero h
        · exact vYieldsTail_pos rest nd hh
  · intro a s pre post hpre hs
    by_cases h : a.n = 0
    · simp only [visitedYields, if_pos h, List.nil_append]
      exact vYieldsTail_stop s post hs pre hpre
    · simp only [visitedYields, if_neg h, List.cons_append, List.nil_append]
      rw [vYieldsTail_stop s post hs pre hpre]

/-- Witness for visited_iteration_truncates: a visited head followed
directly by an unvisited entry, then another visited node; only the head
is yielded. -/
theorem visited_iteration_truncates_witness :
    visitedYields [nodeVisited2, nodeUnvisited, nodeVisited9] = [nodeVisited2] := by
  have h := visited_iteration_truncates.2 nodeVisited2 nodeUnvisited []
    [nodeVisited9] (fun x hx => absurd hx (List.not_mem_nil x)) ⟨rfl, rfl⟩
  exact h.trans (by decide)

theorem parentStep_sticky :
    ∀ (ops : List ParentOp) (q : LowNode), q.isTransposition = true →
      (ops.foldl parentStep q).isTransposition = true := by
  intro ops
  induction ops with
  | nil =>
    intro q hq
    exact hq
  | cons op rest ih =>
    intro q hq
    have hstep : (parentStep q op).isTransposition = true := by
      cases op
      · simp [parentStep, LowNode.addParent, hq]
      · simp [parentStep, LowNode.removeParent, hq]
    exact ih _ hstep

/-- C4: once a second AddParent has made num_parents exceed 1,
IsTransposition() stays true after every further sequence of AddParent and
RemoveParent calls. -/
theorem transposition_sticky (l : LowNode) (ops : List ParentOp)
    (h : 1 < l.addParent.numParents) :
    (ops.foldl parentStep l.addParent).isTransposition = true := by
  apply parentStep_sticky
  have hd : decide (1 < (l.numParents + 1) % 65536) = true := decide_eq_true h
  show (l.isTransposition || decide (1 < (l.numParents + 1) % 65536)) = true
  rw [hd, Bool.or_true]

/-- Witness for transposition_sticky: a payload attached to two parents,
then detached twice and re-attached once. -/
theorem transposition_sticky_witness :
    ([ParentOp.remove, ParentOp.remove, ParentOp.add].foldl parentStep
      ((LowNode.ttNew 0).addParent).addParent).isTransposition = true :=
  transposition_sticky ((LowNode.ttNew 0).addParent)
    [ParentOp.remove, ParentOp.remove, ParentOp.add] (by decide)

/-- C5 counterexample: the non-TT clone copies the source's accumulated wl_
aggregate (here 1/2, different from the original evaluation v_ = 1/4 and
from zero), so it carries an accumulated statistic of the source. -/
theorem nonTTClone_stats_cex :
    statPayload.clone.wl = statPayload.wl ∧
    statPayload.wl ≠ statPayload.v ∧
    statPayload.clone.wl ≠ 0 := by
  refine ⟨rfl, ?_, ?_⟩
  · show (1 / 2 : ℚ) ≠ 1 / 4
    norm_num
  · show (1 / 2 : ℚ) ≠ 0
    norm_num

/-- C5 (amended): the clone has is_tt = false, an element-wise copy of the
source's edge array and original evaluation (v, e), no children, n = 0,
weight = 0, no parents, NonTerminal status with widest bounds; it does not
carry the source's n, weight or children, but it does inherit the source's
current wl, d, m and vs aggregates (harmless, since with weight = 0 and
n = 0 the first score update overwrites them). -/
theorem nonTTClone_characterized (p : LowNode) (es : List Edge)
    (hes : p.edges = some es) (hlen : es.length = p.numEdges) :
    p.clone.isTT = false ∧ p.clone.edges = some es ∧ p.clone.v = p.v ∧
    p.clone.e = p.e ∧ p.clone.child = [] ∧ p.clone.n = 0 ∧
    p.clone.weight = 0 ∧ p.clone.numParents = 0 ∧
    p.clone.terminalType = Terminal.nonTerminal ∧
    p.clone.lowerBound = GameResult.blackWon ∧
    p.clone.upperBound = GameResult.whiteWon ∧
    p.clone.wl = p.wl ∧ p.clone.d = p.d ∧ p.clone.m = p.m ∧
    p.clone.vs = p.vs := by
  refine ⟨rfl, ?_, rfl, rfl, rfl, rfl, rfl, rfl, rfl, rfl, rfl, rfl, rfl, rfl, rfl⟩
  show some ((p.edges.getD []).take p.numEdges) = some es
  rw [hes, Option.getD_some, ← hlen, List.take_length]

/-- Witness for nonTTClone_characterized at the three-edge fixture. -/
theorem nonTTClone_characterized_witness :
    fixturePayload.clone.isTT = false ∧
    fixturePayload.clone.edges = some fixtureEdges ∧
    fixturePayload.clone.v = fixturePayload.v ∧
    fixturePayload.clone.e = fixturePayload.e ∧
    fixturePayload.clone.child = [] ∧ fixturePayload.clone.n = 0 ∧
    fixturePayload.clone.weight = 0 ∧ fixturePayload.clone.numParents = 0 ∧
    fixturePayload.clone.terminalType = Terminal.nonTerminal ∧
    fixturePayload.clone.lowerBound = GameResult.blackWon ∧
    fixturePayload.clone.upperBound = GameResult.whiteWon ∧
    fixturePayload.clone.wl = fixturePayload.wl ∧
    fixturePayload.clone.d = fixturePayload.d ∧
    fixturePayload.clone.m = fixturePayload.m ∧
    fixturePayload.clone.vs = fixturePayload.vs :=
  nonTTClone_characterized fixturePayload fixtureEdges rfl (by decide)

/-- C6: on a table without the hash, TTGetOrCreate(template, h) inserts a
payload copying the template's edge array and evaluation, carrying hash h,
with fresh statistics (n = 0, weight = 0, no children) and is_tt = true. -/
theorem ttGetOrCreate_template (tt : List (Nat × LowNode)) (p : LowNode)
    (h : Nat) (es : List Edge)
    (habs : ttLookup tt h = none) (hes : p.edges = some es)
    (hlen : es.length = p.numEdges) :
    (ttGetOrCreateFrom tt p h).1.2 = true ∧
    ttLookup (ttGetOrCreateFrom tt p h).2 h = some (ttGetOrCreateFrom tt p h).1.1 ∧
    (ttGetOrCreateFrom tt p h).1.1.edges = some es ∧
    (ttGetOrCreateFrom tt p h).1.1.v = p.v ∧
    (ttGetOrCreateFrom tt p h).1.1.e = p.e ∧
    (ttGetOrCreateFrom tt p h).1.1.hash = h ∧
    (ttGetOrCreateFrom tt p h).1.1.n = 0 ∧
    (ttGetOrCreateFrom tt p h).1.1.weight = 0 ∧
    (ttGetOrCreateFrom tt p h).1.1.child = [] ∧
    (ttGetOrCreateFrom tt p h).1.1.isTT = true := by
  have hq : ttGetOrCreateFrom tt p h =
      (({ p.cloneWithHash h with isTT := true }, true),
        (h, { p.cloneWithHash h with isTT := true }) :: tt) := by
    unfold ttGetOrCreateFrom
    rw [habs]
  rw [hq]
  refine ⟨rfl, ?_, ?_, rfl, rfl, rfl, rfl, rfl, rfl, rfl⟩
  · simp [ttLookup]
  · show some ((p.edges.getD []).take p.numEdges) = some es
    rw [hes, Option.getD_some, ← hlen, List.take_length]

/-- Witness for ttGetOrCreate_template: empty table, three-edge template,
hash 42. -/
theorem ttGetOrCreate_template_witness :
    (ttGetOrCreateFrom [] fixturePayload 42).1.2 = true ∧
    ttLookup (ttGetOrCreateFrom [] fixturePayload 42).2 42 =
      some (ttGetOrCreateFrom [] fixturePayload 42).1.1 ∧
    (ttGetOrCreateFrom [] fixturePayload 42).1.1.edges = some fixtureEdges ∧
    (ttGetOrCreateFrom [] fixturePayload 42).1.1.v = fixturePayload.v ∧
    (ttGetOrCreateFrom [] fixturePayload 42).1.1.e = fixturePayload.e ∧
    (ttGetOrCreateFrom [] fixturePayload 42).1.1.hash = 42 ∧
    (ttGetOrCreateFrom [] fixturePayload 42).1.1.n = 0 ∧
    (ttGetOrCreateFrom [] fixturePayload 42).1.1.weight = 0 ∧
    (ttGetOrCreateFrom [] fixturePayload 42).1.1.child = [] ∧
    (ttGetOrCreateFrom [] fixturePayload 42).1.1.isTT = true :=
  ttGetOrCreate_template [] fixturePayload 42 fixtureEdges rfl rfl (by decide)

/-- C8 counterexample: a payload that received an evaluation with zero
legal moves has num_edges = 0 and HasChildren() false, yet its begin edge
iterator does not compare equal to end(), because the comparison is on the
edge array base pointer, which is non-null for an allocated empty array. -/
theorem empty_payload_iteration_cex :
    emptyEvalPayload.numEdges = 0 ∧
    emptyEvalPayload.hasChildren = false ∧
    eiterSameElem (beginEdgeIter (some emptyEvalPayload)) endEdgeIter = false :=
  ⟨rfl, rfl, rfl⟩

theorem eIterRun_none (fuel : Nat) (it : EIter) (h : it.edge = none) :
    eIterRun fuel it = [] := by
  cases fuel with
  | zero => rfl
  | succ f => simp only [eIterRun, h]

/-- C8 (amended): a payload with num_edges = 0 has HasChildren() false;
when its edge array is unallocated (null), the begin iterator equals end()
and iteration yields nothing; when an empty edge array has been installed,
the begin iterator does not compare equal to end(). -/
theorem empty_payload_iteration (l : LowNode) (h0 : l.numEdges = 0) :
    l.hasChildren = false ∧
    (l.edges = none →
      eiterSameElem (beginEdgeIter (some l)) endEdgeIter = true ∧
      edgeIterYields (some l) = []) ∧
    (l.edges ≠ none →
      eiterSameElem (beginEdgeIter (some l)) endEdgeIter = false) := by
  refine ⟨?_, fun hn => ⟨?_, ?_⟩, fun hn => ?_⟩
  · simp [LowNode.hasChildren, h0]
  · simp [eiterSameElem, beginEdgeIter, endEdgeIter, hn]
  · apply eIterRun_none
    simp [beginEdgeIter, hn]
  · simp [eiterSameElem, beginEdgeIter, endEdgeIter, hn]

/-- Witness for empty_payload_iteration: a fresh TT payload with no edges
installed. -/
theorem empty_payload_iteration_witness :
    (LowNode.ttNew 7).hasChildren = false ∧
    eiterSameElem (beginEdgeIter (some (LowNode.ttNew 7))) endEdgeIter = true ∧
    edgeIterYields (some (LowNode.ttNew 7)) = [] := by
  have h := empty_payload_iteration (LowNode.ttNew 7) rfl
  exact ⟨h.1, (h.2.1 rfl).1, (h.2.1 rfl).2⟩

/-- C9: ClearTT() negates is_tt_: when IsTT() is false a call makes it
true, and two consecutive calls restore the payload exactly. -/
theorem clearTT_toggle_involutive (l : LowNode) :
    (l.isTT = false → l.clearTT.isTT = true) ∧ l.clearTT.clearTT = l := by
  constructor
  · intro h
    simp [LowNode.clearTT, h]
  · cases l
    simp [LowNode.clearTT]

/-- Witness for clearTT_toggle_involutive at a detached payload. -/
theorem clearTT_toggle_involutive_witness :
    ({ LowNode.ttNew 0 with isTT := false }).clearTT.isTT = true ∧
    ({ LowNode.ttNew 0 with isTT := false }).clearTT.clearTT =
      { LowNode.ttNew 0 with isTT := false } :=
  ⟨(clearTT_toggle_involutive { LowNode.ttNew 0 with isTT := false }).1 rfl,
   (clearTT_toggle_involutive { LowNode.ttNew 0 with isTT := false }).2⟩

/-- C10: GetChildrenVisits() is n - 1 in unsigned 32-bit arithmetic: on a
payload with n = 0 it returns 2^32 - 1 (not 0 and no error), and under the
precondition n at least 1 it returns n - 1. -/
theorem getChildrenVisits_wrap (l : LowNode) :
    (l.n = 0 → l.getChildrenVisits = 4294967295 ∧ l.getChildrenVisits ≠ 0) ∧
    (1 ≤ l.n → l.n ≤ 4294967295 → l.getChildrenVisits = l.n - 1) := by
  unfold LowNode.getChildrenVisits
  constructor
  · intro h
    omega
  · intro h1 h2
    omega

/-- Witness for getChildrenVisits_wrap at n = 0 and n = 5. -/
theorem getChildrenVisits_wrap_witness :
    ((LowNode.ttNew 0).getChildrenVisits = 4294967295 ∧
      (LowNode.ttNew 0).getChildrenVisits ≠ 0) ∧
    ({ LowNode.ttNew 0 with n := 5 }).getChildrenVisits = 5 - 1 :=
  ⟨(getChildrenVisits_wrap (LowNode.ttNew 0)).1 rfl,
   (getChildrenVisits_wrap { LowNode.ttNew 0 with n := 5 }).2 (by decide) (by decide)⟩

theorem ratSum_map_mul (c : ℚ) :
    ∀ l : List ℚ, (l.map (fun x => x * c)).sum = l.sum * c := by
  intro l
  induction l with
  | nil => simp
  | cons x xs ih => simp [ih, add_mul]

/-- C7: for a cache-miss entry the computed priors equal the spec softmax
(subtract max logit, divide by temperature, exponentiate, normalize), they
sum to 1, they are written back into the edge array, and the edges are then
sorted by prior descending.  FastExp is abstracted as any positive
function. -/
theorem compute_blocking_policy (temp : ℚ) (fexp : ℚ → ℚ)
    (edges : List Edge) (logits : List ℚ)
    (hpos : ∀ x, 0 < fexp x) (hne : logits ≠ [])
    (hlen : edges.length = logits.length) :
    softmaxPriors temp fexp logits = claimPriors temp fexp logits ∧
    (softmaxPriors temp fexp logits).sum = 1 ∧
    (computeEntryEdges temp fexp edges logits).Perm
      (List.zipWith (fun e q => { e with p := q }) edges
        (softmaxPriors temp fexp logits)) ∧
    List.Pairwise (fun a b : Edge => b.p ≤ a.p)
      (computeEntryEdges temp fexp edges logits) ∧
    (computeEntryEdges temp fexp edges logits).length = edges.length := by
  have hintpos : ∀ a ∈ logits.map (fun q => fexp ((q - maxLogit logits) / temp)), 0 < a := by
    intro a ha
    rcases List.mem_map.mp ha with ⟨x, _, hx⟩
    rw [← hx]
    exact hpos _
  have hinne : logits.map (fun q => fexp ((q - maxLogit logits) / temp)) ≠ [] := by
    intro hcon
    exact hne (List.map_eq_nil_iff.mp hcon)
  have htot : 0 < (logits.map (fun q => fexp ((q - maxLogit logits) / temp))).sum :=
    List.sum_pos _ hintpos hinne
  have htotne : (logits.map (fun q => fexp ((q - maxLogit logits) / temp))).sum ≠ 0 :=
    ne_of_gt htot
  have heq : softmaxPriors temp fexp logits = claimPriors temp fexp logits := by
    simp only [softmaxPriors, claimPriors, if_pos htot]
    simp only [mul_one_div]
  have hsum : (softmaxPriors temp fexp logits).sum = 1 := by
    simp only [softmaxPriors, if_pos htot]
    rw [ratSum_map_mul, mul_one_div]
    exact div_self htotne
  have htrans : ∀ a b c : Edge, (decide (b.p ≤ a.p)) = true →
      (decide (c.p ≤ b.p)) = true → (decide (c.p ≤ a.p)) = true := by
    intro a b c hab hbc
    exact decide_eq_true (le_trans (of_decide_eq_true hbc) (of_decide_eq_true hab))
  have htotal : ∀ a b : Edge,
      ((decide (b.p ≤ a.p)) || (decide (a.p ≤ b.p))) = true := by
    intro a b
    rcases le_total b.p a.p with h | h
    · rw [decide_eq_true h]
      exact Bool.true_or _
    · rw [decide_eq_true h]
      exact Bool.or_true _
  have hperm : (computeEntryEdges temp fexp edges logits).Perm
      (List.zipWith (fun e q => { e with p := q }) edges
        (softmaxPriors temp fexp logits)) := by
    simp only [computeEntryEdges, sortEdgesDesc]
    exact List.mergeSort_perm _ _
  have hsorted : List.Pairwise (fun a b : Edge => b.p ≤ a.p)
      (computeEntryEdges temp fexp edges logits) := by
    have hs := @List.sorted_mergeSort Edge (fun a b => decide (b.p ≤ a.p))
      htrans htotal
      (List.zipWith (fun e q => { e with p := q }) edges
        (softmaxPriors temp fexp logits))
    simp only [computeEntryEdges, sortEdgesDesc]
    exact hs.imp (fun h => of_decide_eq_true h)
  have hlength : (computeEntryEdges temp fexp edges logits).length = edges.length := by
    simp only [computeEntryEdges, sortEdgesDesc]
    rw [List.length_mergeSort, List.length_zipWith]
    simp [softmaxPriors, hlen]
  exact ⟨heq, hsum, hperm, hsorted, hlength⟩

/-- Witness for compute_blocking_policy: two edges, equal logits, unit
temperature, constant positive exponential. -/
theorem compute_blocking_policy_witness :
    softmaxPriors 1 (fun _ => 1) [0, 0] = claimPriors 1 (fun _ => 1) [0, 0] ∧
    (softmaxPriors 1 (fun _ => 1) [0, 0]).sum = 1 ∧
    (computeEntryEdges 1 (fun _ => 1) [Edge.mk 0 0, Edge.mk 1 0] [0, 0]).Perm
      (List.zipWith (fun e q => { e with p := q }) [Edge.mk 0 0, Edge.mk 1 0]
        (softmaxPriors 1 (fun _ => 1) [0, 0])) ∧
    List.Pairwise (fun a b : Edge => b.p ≤ a.p)
      (computeEntryEdges 1 (fun _ => 1) [Edge.mk 0 0, Edge.mk 1 0] [0, 0]) ∧
    (computeEntryEdges 1 (fun _ => 1) [Edge.mk 0 0, Edge.mk 1 0] [0, 0]).length = 2 := by
  have h := compute_blocking_policy 1 (fun _ => 1) [Edge.mk 0 0, Edge.mk 1 0]
    [0, 0] (fun _ => one_pos) (by simp) rfl
  exact ⟨h.1, h.2.1, h.2.2.1, h.2.2.2.1, h.2.2.2.2⟩

end lczero
